import Mathlib

/-!
Verification of the daily NAV history reconciliation routine of the
Keyvault-Dashboards repository.

The embedding follows the source scripts:
- `scripts/daily-nav-stamp.js` (two variants in the file: the public-vault
  variant and the normalization variant), and
- the unnamed source `part_001` (a public-vault variant with an atomic
  `saveHistory`).

JS numbers are modelled as `ℚ`: every value the reconciler validates comes
out of `JSON.parse`, and JSON numerals denote finite decimal numbers, so
`NaN`/`Infinity` cannot arise on those paths.  JS string comparison via
`localeCompare` on zero-padded ASCII dates coincides with lexicographic
order, i.e. with `String.le`.  `Array.prototype.sort` is a stable sort, so
it is modelled by `List.mergeSort`.
-/

namespace NavStamp

/-- One persisted NAV record, with the fields written by the normalization
variant of `daily-nav-stamp.js` (lines 278-286).  Fields that older history
entries may lack are kept as plain values; only `date` and `SharePrice`
matter to the reconciliation logic. -/
structure NavRecord where
  date : String
  timestamp : String
  SharePrice : ℚ
  rawSharePrice : ℚ
  normalizationRatio : ℚ
  tvl : ℚ
  source_update_time : String
deriving DecidableEq

/-- The sort comparator `(a, b) => a.date.localeCompare(b.date)` of
`daily-nav-stamp.js` line 142/317, as a boolean "less or equal". -/
def navLe (a b : NavRecord) : Bool := decide (a.date ≤ b.date)

/-- The merge step before sorting, from `daily-nav-stamp.js` lines 306-314:
`findIndex` on the date, replace in place if found, else push. -/
def preMerge (history : List NavRecord) (record : NavRecord) : List NavRecord :=
  match history.findIdx? (fun h => h.date == record.date) with
  | some i => history.set i record
  | none => history ++ [record]

/-- The full reconcile merge of `daily-nav-stamp.js` lines 306-317:
replace-in-place or append, then sort ascending by date string. -/
def mergeRecord (history : List NavRecord) (record : NavRecord) : List NavRecord :=
  (preMerge history record).mergeSort navLe

/-- The NavHistory invariant "at most one record per date". -/
def DistinctDates (l : List NavRecord) : Prop :=
  l.Pairwise (fun a b => a.date ≠ b.date)

/-- The day-over-day change of `daily-nav-stamp.js` lines 332-340: find
today's index in the merged history; if a record precedes it and that
record's share price is positive, report the percentage change, else null. -/
def dayChangeOpt (merged : List NavRecord) (todayDate : String) (price : ℚ) : Option ℚ :=
  match merged.findIdx? (fun h => h.date == todayDate) with
  | some todayIdx =>
    if 0 < todayIdx then
      match merged[todayIdx - 1]? with
      | some prev =>
        if 0 < prev.SharePrice then
          some ((price - prev.SharePrice) / prev.SharePrice * 100)
        else none
      | none => none
    else none
  | none => none

/-- Rounding to four decimal places, as `Number.prototype.toFixed(4)` does
for the values in range here (round half away from zero; all values of
interest are positive, where this agrees with `round`). -/
def toFixed4 (q : ℚ) : ℚ := ((round (q * 10000) : ℤ) : ℚ) / 10000

/-- Arithmetic mean used by the deviation checks:
`arr.reduce((a, b) => a + b, 0) / arr.length`. -/
def listMean (l : List ℚ) : ℚ := l.sum / (l.length : ℚ)

/-- The window of share prices strictly before index `i` that the
public-vault variant averages: the last up to four prior records, with
falsy (zero) prices dropped by `.filter(Boolean)`. -/
def priorPrices (merged : List NavRecord) (i : Nat) : List ℚ :=
  ((((merged.drop (i - 4)).take (i - (i - 4))).map (fun h => h.SharePrice)).filter
    (fun p => p != 0))

/-- The deviation check of the public-vault variant, `daily-nav-stamp.js`
lines 144-151: average the prices of `history.slice(Math.max(0, todayIdx - 4),
todayIdx)` (records strictly before today) after `.filter(Boolean)`, and warn
when the new price deviates from that average by more than 5 percent.  The
`none` branch mirrors the JS `findIndex` convention; after the merge the
record is always found. -/
def devWarnV1 (merged : List NavRecord) (todayDate : String) (sharePrice : ℚ) : Bool :=
  match merged.findIdx? (fun h => h.date == todayDate) with
  | some todayIdx =>
    let lastFew := priorPrices merged todayIdx
    if 0 < lastFew.length then
      let avg := listMean lastFew
      decide (1/20 < |sharePrice - avg| / avg)
    else false
  | none => false

/-- The sanity check of the normalization variant, `daily-nav-stamp.js`
lines 319-325: average the prices of `history.slice(-5)` — the last five
records of the merged history, including today's freshly merged record —
and warn when the normalized price deviates from that average by more than
5 percent.  (With an empty list the mean is `0/0 = 0` in `ℚ` and the
comparison is false, matching the JS `NaN` comparison being false.) -/
def devWarnV2 (merged : List NavRecord) (normalized : ℚ) : Bool :=
  let lastFewPrices := (merged.drop (merged.length - 5)).map (fun h => h.SharePrice)
  let avg := listMean lastFewPrices
  decide (1/20 < |normalized - avg| / avg)

/-- The TVL drop check of the normalization variant, `daily-nav-stamp.js`
lines 296-304: if the history is non-empty and its last entry has a truthy
positive tvl, warn when the new tvl is more than a 40 percent drop. -/
def tvlDropWarn (history : List NavRecord) (tvl : ℚ) : Bool :=
  match history.getLast? with
  | some prevEntry =>
    if 0 < prevEntry.tvl then decide (2/5 < (prevEntry.tvl - tvl) / prevEntry.tvl)
    else false
  | none => false

/-- The JSON payload fetched from the vault API in the normalization
variant.  A field holds `none` when the JSON value is absent or not a
number (the `typeof vault.X !== 'number'` checks); JSON numbers are always
finite, so `ℚ` covers every value `res.json()` can produce. -/
structure VaultPayload where
  SharePrice : Option ℚ
  tvl : Option ℚ
  update_time_utc : Option String
deriving DecidableEq

/-- Terminal failures of a reconciliation run (each models a `throw` or
`process.exit(1)` happening before the history file is written). -/
inductive NavError where
  | sourceUnavailable (msg : String)
  | invalidSharePrice
  | invalidTVL
deriving DecidableEq

/-- Outcome of a successful run: the history written to disk, the warning
signals emitted, and the day-over-day change reported. -/
structure RunOutput where
  saved : List NavRecord
  warnings : List String
  dayChange : Option ℚ
deriving DecidableEq

/-- The manually calibrated bridge multiplier of the normalization variant
(`const NORMALIZATION_RATIO = 1.1909` in the source). -/
def normalizationRatioVal : ℚ := 11909 / 10000

/-- JS `x || dflt` on an optional string (empty string is falsy). -/
def jsOrElse (s : Option String) (dflt : String) : String :=
  match s with
  | some s => if s = "" then dflt else s
  | none => dflt

/-- The record built by the normalization variant, `daily-nav-stamp.js`
lines 278-286. -/
def recordOf (raw tvl : ℚ) (todayDate nowIso : String) (upd : Option String) : NavRecord :=
  { date := todayDate
    timestamp := nowIso
    SharePrice := raw * normalizationRatioVal
    rawSharePrice := raw
    normalizationRatio := normalizationRatioVal
    tvl := tvl
    source_update_time := jsOrElse upd nowIso }

/-- The reconciliation run of the normalization variant (`main`, lines
254-353), as a pure function of the fetch outcome, the EST date, the
capture instant, and the previously persisted history.  An `.error` result
models the run aborting (throw or exit) before the history file is
written; on `.ok`, `saved` is the full content written to the file. -/
def runNavStamp (fetched : Except String VaultPayload) (todayDate nowIso : String)
    (history : List NavRecord) : Except NavError RunOutput :=
  match fetched with
  | .error e => .error (.sourceUnavailable e)
  | .ok vault =>
    match vault.SharePrice with
    | none => .error .invalidSharePrice
    | some rawSharePrice =>
      if rawSharePrice ≤ 0 then .error .invalidSharePrice
      else
        match vault.tvl with
        | none => .error .invalidTVL
        | some tvl =>
          if tvl ≤ 0 then .error .invalidTVL
          else
            -- lines 292-295 repeat the tvl check with process.exit(1);
            -- unreachable after the validation above, kept for fidelity
            if tvl ≤ 0 then .error .invalidTVL
            else
              .ok { saved := mergeRecord history
                      (recordOf rawSharePrice tvl todayDate nowIso vault.update_time_utc)
                    warnings :=
                      (if tvlDropWarn history tvl then ["tvl-drop"] else []) ++
                      (if devWarnV2
                          (mergeRecord history
                            (recordOf rawSharePrice tvl todayDate nowIso vault.update_time_utc))
                          (rawSharePrice * normalizationRatioVal)
                        then ["price-deviation"] else [])
                    dayChange := dayChangeOpt
                      (mergeRecord history
                        (recordOf rawSharePrice tvl todayDate nowIso vault.update_time_utc))
                      todayDate (rawSharePrice * normalizationRatioVal) }

/-- Content of a file on disk: a valid serialized history, or the remains
of an interrupted write. -/
inductive FileContent where
  | valid (h : List NavRecord)
  | corrupt
deriving DecidableEq

/-- The two files `saveHistory` touches: the history file (`target`) and
the temporary file (`tmp`); `none` means the file does not exist. -/
structure FsState where
  target : Option FileContent
  tmp : Option FileContent
deriving DecidableEq

/-- States the file system can reach if the process is killed at any point
while `part_001`'s `saveHistory` (lines 246-252) runs against a valid
history `old`, writing the new history `new`: before the tmp write, in the
middle of the interrupted tmp write, after the tmp write, and after the
atomic `renameSync` of tmp over the target. -/
inductive AtomicSaveReachable (old new : List NavRecord) : FsState → Prop
  | start : AtomicSaveReachable old new { target := some (.valid old), tmp := none }
  | midWrite : AtomicSaveReachable old new
      { target := some (.valid old), tmp := some .corrupt }
  | tmpDone : AtomicSaveReachable old new
      { target := some (.valid old), tmp := some (.valid new) }
  | renamed : AtomicSaveReachable old new
      { target := some (.valid new), tmp := none }

/-- States reachable under the same crash model for the direct
`fs.writeFileSync(NAV_FILE, ...)` persistence of `daily-nav-stamp.js`
(lines 153-154 and 327-329), which truncates and rewrites the history file
in place with no temporary file. -/
inductive DirectSaveReachable (old new : List NavRecord) : FsState → Prop
  | start : DirectSaveReachable old new { target := some (.valid old), tmp := none }
  | midWrite : DirectSaveReachable old new { target := some .corrupt, tmp := none }
  | written : DirectSaveReachable old new { target := some (.valid new), tmp := none }

/-- A concrete record with only the fields the reconciliation logic reads. -/
def mkRec (d : String) (p : ℚ) : NavRecord :=
  { date := d, timestamp := "", SharePrice := p, rawSharePrice := 0,
    normalizationRatio := 0, tvl := 0, source_update_time := "" }

/-- The spec's worked example history: one record on 2026-02-17 at 1.20. -/
def histC5 : List NavRecord := [mkRec "2026-02-17" (6/5)]

/-- The spec's worked example new record: 2026-02-18 at 1.25. -/
def recC5 : NavRecord := mkRec "2026-02-18" (5/4)

/-- Four prior records at 1.10, the trailing history of the deviation
examples. -/
def histC6 : List NavRecord :=
  [mkRec "2026-02-10" (11/10), mkRec "2026-02-11" (11/10),
   mkRec "2026-02-12" (11/10), mkRec "2026-02-13" (11/10)]

/-- New record at 1.20 (9.1 percent above the 1.10 trailing average). -/
def recC6a : NavRecord := mkRec "2026-02-14" (6/5)

/-- New record at 1.13 (2.7 percent above the 1.10 trailing average). -/
def recC6b : NavRecord := mkRec "2026-02-14" (113/100)

/-- New record at 1.157 (5.18 percent above the 1.10 trailing average, but
only 4.1 percent above the 5-record average that includes itself). -/
def recC6c : NavRecord := mkRec "2026-02-14" (1157/1000)

/-- A prior history entry with tvl 10, for the tvl-drop example. -/
def prevRecC10 : NavRecord :=
  { date := "2026-02-17", timestamp := "t", SharePrice := 6/5,
    rawSharePrice := 1, normalizationRatio := 1, tvl := 10,
    source_update_time := "t" }

end NavStamp

namespace NavStamp

theorem navLe_trans : ∀ (a b c : NavRecord), navLe a b → navLe b c → navLe a c := by
  intro a b c hab hbc
  simp only [navLe, decide_eq_true_eq] at *
  exact le_trans hab hbc

theorem navLe_total : ∀ (a b : NavRecord), navLe a b || navLe b a := by
  intro a b
  simp only [navLe, Bool.or_eq_true, decide_eq_true_eq]
  exact le_total a.date b.date

/-- If the head does not carry the new record's date, `preMerge` keeps the
head and recurses into the tail. -/
theorem preMerge_cons_ne (a : NavRecord) (t : List NavRecord) (record : NavRecord)
    (h : (a.date == record.date) = false) :
    preMerge (a :: t) record = a :: preMerge t record := by
  simp only [preMerge, List.findIdx?_cons, h, Nat.zero_add, List.findIdx?_start_succ]
  cases ht : t.findIdx? (fun h => h.date == record.date) with
  | none => simp [ht]
  | some i => simp [ht]

/-- On a history with at most one record per date, the pre-sort merge is a
permutation of the new record together with the old records of other dates:
the same-date record (if any) is replaced, everything else is kept. -/
theorem preMerge_perm (record : NavRecord) :
    ∀ (history : List NavRecord), DistinctDates history →
      (preMerge history record).Perm
        (record :: history.filter (fun x => x.date != record.date))
  | [], _ => by simp [preMerge]
  | a :: t, hdist => by
    rcases List.pairwise_cons.mp hdist with ⟨hhead, htail⟩
    by_cases hd : (a.date == record.date) = true
    · have had : a.date = record.date := by simpa using hd
      have hfilter : t.filter (fun x => x.date != record.date) = t := by
        apply List.filter_eq_self.mpr
        intro x hx
        have : a.date ≠ x.date := hhead x hx
        simp only [bne_iff_ne, ne_eq]
        rw [← had]
        exact fun hxe => this hxe.symm
      have hpre : preMerge (a :: t) record = record :: t := by
        simp [preMerge, List.findIdx?_cons, hd]
      rw [hpre]
      have : (a :: t).filter (fun x => x.date != record.date) = t := by
        simp only [List.filter_cons]
        rw [if_neg (by simp [had])]
        exact hfilter
      rw [this]
    · have hd' : (a.date == record.date) = false := by simpa using hd
      rw [preMerge_cons_ne a t record hd']
      have ih := preMerge_perm record t htail
      have hfa : (a :: t).filter (fun x => x.date != record.date) =
          a :: t.filter (fun x => x.date != record.date) := by
        simp only [List.filter_cons]
        rw [if_pos (by simpa using hd')]
      rw [hfa]
      exact (ih.cons a).trans (List.Perm.swap record a _)

/-- Elements of the pre-sort merge come from the old history or are the new
record. -/
theorem mem_preMerge {history : List NavRecord} {record x : NavRecord}
    (hx : x ∈ preMerge history record) : x ∈ history ∨ x = record := by
  unfold preMerge at hx
  cases hfind : history.findIdx? (fun h => h.date == record.date) with
  | some i =>
    rw [hfind] at hx
    exact List.mem_or_eq_of_mem_set hx
  | none =>
    rw [hfind] at hx
    rcases List.mem_append.mp hx with h | h
    · exact Or.inl h
    · exact Or.inr (List.mem_singleton.mp h)

/-- The merged output has the same elements as the pre-sort merge. -/
theorem mem_mergeRecord {history : List NavRecord} {record x : NavRecord} :
    x ∈ mergeRecord history record ↔ x ∈ preMerge history record := by
  unfold mergeRecord
  exact List.mem_mergeSort

/-- The merged output is sorted (non-strictly) by date string comparison. -/
theorem mergeRecord_sorted_le (history : List NavRecord) (record : NavRecord) :
    (mergeRecord history record).Pairwise (fun a b => a.date ≤ b.date) := by
  have h := List.sorted_mergeSort navLe_trans navLe_total (preMerge history record)
  exact h.imp (by intro a b hab; simpa [navLe] using hab)

/-- The reconcile merge is a permutation of: the new record, plus every old
record whose date differs from the new record's date. -/
theorem mergeRecord_perm (history : List NavRecord) (record : NavRecord)
    (hdist : DistinctDates history) :
    (mergeRecord history record).Perm
      (record :: history.filter (fun x => x.date != record.date)) :=
  (List.mergeSort_perm (preMerge history record) navLe).trans
    (preMerge_perm record history hdist)

/-- On a history with distinct dates, the merged output again has distinct
dates. -/
theorem mergeRecord_distinct (history : List NavRecord) (record : NavRecord)
    (hdist : DistinctDates history) :
    DistinctDates (mergeRecord history record) := by
  have hsym : ∀ {x y : NavRecord}, x.date ≠ y.date → y.date ≠ x.date :=
    fun h => Ne.symm h
  apply (List.Perm.pairwise_iff hsym (mergeRecord_perm history record hdist)).mpr
  apply List.pairwise_cons.mpr
  constructor
  · intro x hx
    have := List.of_mem_filter hx
    simp only [bne_iff_ne, ne_eq] at this
    exact fun hr => this (hr.symm)
  · exact List.Pairwise.filter _ hdist

/-- Lexicographic order transfer: a pairwise comparison on the underlying
character lists gives the boolean comparator used by the sort. -/
theorem pairwise_navLe_of_toList {l : List NavRecord}
    (h : l.Pairwise (fun a b => a.date.toList ≤ b.date.toList)) :
    l.Pairwise (fun a b => navLe a b) :=
  h.imp (fun hab => by
    simp only [navLe, decide_eq_true_eq, String.le_iff_toList_le]
    exact hab)

/-- The spec example merge: the new 02-18 record is appended after the
02-17 record. -/
theorem mergeC5 : mergeRecord histC5 recC5 = histC5 ++ [recC5] :=
  List.mergeSort_of_sorted (pairwise_navLe_of_toList (by decide))

/-- Deviation example merge, new price 1.20. -/
theorem mergeC6a : mergeRecord histC6 recC6a = histC6 ++ [recC6a] :=
  List.mergeSort_of_sorted (pairwise_navLe_of_toList (by decide))

/-- Deviation example merge, new price 1.13. -/
theorem mergeC6b : mergeRecord histC6 recC6b = histC6 ++ [recC6b] :=
  List.mergeSort_of_sorted (pairwise_navLe_of_toList (by decide))

/-- Deviation example merge, new price 1.157. -/
theorem mergeC6c : mergeRecord histC6 recC6c = histC6 ++ [recC6c] :=
  List.mergeSort_of_sorted (pairwise_navLe_of_toList (by decide))

/-- A `findIdx?` hit: the index is in range and the predicate holds there. -/
theorem findIdx_hit {p : NavRecord → Bool} {l : List NavRecord} {i : Nat}
    (h : l.findIdx? p = some i) :
    ∃ hi : i < l.length, p (l.get ⟨i, hi⟩) := by
  rcases List.findIdx?_eq_some_iff_getElem.mp h with ⟨hi, hp, _⟩
  exact ⟨hi, hp⟩

/-- The new record is always an element of the pre-sort merge. -/
theorem self_mem_preMerge (history : List NavRecord) (record : NavRecord) :
    record ∈ preMerge history record := by
  unfold preMerge
  cases hfind : history.findIdx? (fun h => h.date == record.date) with
  | some i =>
    rcases findIdx_hit hfind with ⟨hi, _⟩
    exact List.mem_set history i hi record
  | none => exact List.mem_append.mpr (Or.inr (List.mem_singleton.mpr rfl))

/-- Old records of a different date survive the pre-sort merge unchanged. -/
theorem mem_preMerge_of_ne {history : List NavRecord} {record x : NavRecord}
    (hx : x ∈ history) (hne : x.date ≠ record.date) :
    x ∈ preMerge history record := by
  unfold preMerge
  cases hfind : history.findIdx? (fun h => h.date == record.date) with
  | some i =>
    rcases findIdx_hit hfind with ⟨hi, hp⟩
    rcases List.mem_iff_getElem.mp hx with ⟨j, hj, hxj⟩
    have hji : j ≠ i := by
      intro heq
      subst heq
      apply hne
      have : (history[j].date == record.date) = true := hp
      rw [hxj] at this
      exact eq_of_beq this
    refine List.mem_iff_getElem.mpr ⟨j, by simpa using hj, ?_⟩
    rw [List.getElem_set_ne (Ne.symm hji)]
    exact hxj
  | none => exact List.mem_append.mpr (Or.inl hx)

end NavStamp

namespace NavStamp

/-- C1: for every history satisfying the at-most-one-record-per-date
invariant and every new record, the history produced by the reconcile
merge (replace-in-place or append, then sort) is strictly ascending under
lexicographic date-string comparison and keeps at most one record per
date. -/
theorem merge_strictly_sorted_no_dup (history : List NavRecord) (record : NavRecord)
    (hdist : DistinctDates history) :
    (mergeRecord history record).Pairwise (fun a b => a.date < b.date) ∧
    DistinctDates (mergeRecord history record) := by
  have hle := mergeRecord_sorted_le history record
  have hne := mergeRecord_distinct history record hdist
  exact ⟨(hle.and hne).imp (fun hab => lt_of_le_of_ne hab.1 hab.2), hne⟩

/-- Witness for C1 on the spec's worked example. -/
theorem merge_strictly_sorted_no_dup_witness :
    DistinctDates histC5 ∧
    ((mergeRecord histC5 recC5).Pairwise (fun a b => a.date < b.date) ∧
      DistinctDates (mergeRecord histC5 recC5)) :=
  ⟨by unfold DistinctDates; decide, merge_strictly_sorted_no_dup histC5 recC5 (by unfold DistinctDates; decide)⟩

/-- C2: the merge replaces the same-date record when one exists and appends
otherwise, then re-sorts: concretely, it is the sort of `set i record`
when `findIndex` hits index `i` and the sort of `history ++ [record]` when
it misses, and the result is a permutation of the new record together with
all old records of other dates, sorted ascending by date comparison. -/
theorem merge_replace_or_append (history : List NavRecord) (record : NavRecord)
    (hdist : DistinctDates history) :
    (∀ i, history.findIdx? (fun h => h.date == record.date) = some i →
      mergeRecord history record = (history.set i record).mergeSort navLe) ∧
    (history.findIdx? (fun h => h.date == record.date) = none →
      mergeRecord history record = (history ++ [record]).mergeSort navLe) ∧
    (mergeRecord history record).Perm
      (record :: history.filter (fun x => x.date != record.date)) ∧
    (mergeRecord history record).Pairwise (fun a b => a.date ≤ b.date) := by
  refine ⟨?_, ?_, mergeRecord_perm history record hdist,
    mergeRecord_sorted_le history record⟩
  · intro i hi
    simp [mergeRecord, preMerge, hi]
  · intro hn
    simp [mergeRecord, preMerge, hn]

/-- Witness for C2 on the spec's worked example (the append case). -/
theorem merge_replace_or_append_witness :
    DistinctDates histC5 ∧
    (mergeRecord histC5 recC5).Perm
      (recC5 :: histC5.filter (fun x => x.date != recC5.date)) :=
  ⟨by unfold DistinctDates; decide, (merge_replace_or_append histC5 recC5 (by unfold DistinctDates; decide)).2.2.1⟩

/-- C9: the merge never drops an existing date — every date of the old
history is still present after the merge, and every old record whose date
differs from the new record's date appears unchanged in the result. -/
theorem merge_preserves_existing_dates (history : List NavRecord) (record : NavRecord) :
    (∀ x ∈ history, ∃ y ∈ mergeRecord history record, y.date = x.date) ∧
    (∀ x ∈ history, x.date ≠ record.date → x ∈ mergeRecord history record) := by
  constructor
  · intro x hx
    by_cases hd : x.date = record.date
    · exact ⟨record, mem_mergeRecord.mpr (self_mem_preMerge history record), hd.symm⟩
    · exact ⟨x, mem_mergeRecord.mpr (mem_preMerge_of_ne hx hd), rfl⟩
  · intro x hx hne
    exact mem_mergeRecord.mpr (mem_preMerge_of_ne hx hne)

/-- Witness for C9: the 02-17 record survives the merge of the 02-18
record. -/
theorem merge_preserves_existing_dates_witness :
    mkRec "2026-02-17" (6/5) ∈ mergeRecord histC5 recC5 :=
  (merge_preserves_existing_dates histC5 recC5).2 (mkRec "2026-02-17" (6/5))
    (by simp [histC5]) (by decide)

end NavStamp

namespace NavStamp

/-- Structure of the pre-sort merge: the new record sits at the position of
the first old record with its date (or at the end), and everything before
it has a different date. -/
theorem preMerge_split (record : NavRecord) :
    ∀ (history : List NavRecord), ∃ pre post,
      preMerge history record = pre ++ record :: post ∧
      ∀ x ∈ pre, (x.date == record.date) = false
  | [] => ⟨[], [], by simp [preMerge], by simp⟩
  | a :: t => by
    by_cases hd : (a.date == record.date) = true
    · refine ⟨[], t, ?_, by simp⟩
      simp [preMerge, List.findIdx?_cons, hd]
    · have hd' : (a.date == record.date) = false := by simpa using hd
      obtain ⟨pre, post, h1, h2⟩ := preMerge_split record t
      refine ⟨a :: pre, post, ?_, ?_⟩
      · rw [preMerge_cons_ne a t record hd', h1]
        simp
      · intro x hx
        rcases List.mem_cons.mp hx with rfl | hx
        · exact hd'
        · exact h2 x hx

/-- Among the pre-sort merge's records carrying the new record's date, the
new record comes first. -/
theorem filter_preMerge (history : List NavRecord) (record : NavRecord) :
    ∃ rest, (preMerge history record).filter (fun x => x.date == record.date) =
      record :: rest := by
  obtain ⟨pre, post, hsplit, hpre⟩ := preMerge_split record history
  refine ⟨post.filter (fun x => x.date == record.date), ?_⟩
  rw [hsplit, List.filter_append]
  have h1 : pre.filter (fun x => x.date == record.date) = [] :=
    List.filter_eq_nil_iff.mpr (fun x hx => by simp [hpre x hx])
  rw [h1, List.filter_cons]
  simp

/-- Records sharing one date are pairwise ordered by the comparator. -/
theorem pairwise_navLe_filter (history : List NavRecord) (record : NavRecord) :
    ((preMerge history record).filter (fun x => x.date == record.date)).Pairwise
      (fun a b => navLe a b) := by
  apply List.pairwise_of_forall_mem_list
  intro a ha b hb
  have ha' : a.date = record.date := by
    have := List.of_mem_filter ha
    exact eq_of_beq this
  have hb' : b.date = record.date := by
    have := List.of_mem_filter hb
    exact eq_of_beq this
  simp [navLe, ha', hb']

/-- Stability of the sort: sorting does not reorder the records that carry
the new record's date, so filtering them out commutes with the sort. -/
theorem mergeRecord_filter_eq (history : List NavRecord) (record : NavRecord) :
    (mergeRecord history record).filter (fun x => x.date == record.date) =
      (preMerge history record).filter (fun x => x.date == record.date) := by
  have hsub : List.Sublist
      ((preMerge history record).filter (fun x => x.date == record.date))
      (mergeRecord history record) :=
    List.sublist_mergeSort navLe_trans navLe_total
      (pairwise_navLe_filter history record) (List.filter_sublist _)
  have hperm : ((mergeRecord history record).filter
      (fun x => x.date == record.date)).Perm
      ((preMerge history record).filter (fun x => x.date == record.date)) :=
    (List.mergeSort_perm (preMerge history record) navLe).filter _
  have hself : ((preMerge history record).filter
      (fun x => x.date == record.date)).filter (fun x => x.date == record.date) =
      (preMerge history record).filter (fun x => x.date == record.date) :=
    List.filter_eq_self.mpr (by intro a ha; exact (List.mem_filter.mp ha).2)
  have hsub2 : List.Sublist
      ((preMerge history record).filter (fun x => x.date == record.date))
      ((mergeRecord history record).filter (fun x => x.date == record.date)) := by
    have := hsub.filter (fun x => x.date == record.date)
    rwa [hself] at this
  exact (hsub2.eq_of_length hperm.length_eq.symm).symm

/-- A `findIdx?` hit points at the head of the filtered list. -/
theorem filter_head_of_findIdx {α : Type} {p : α → Bool} :
    ∀ {l : List α} {j : Nat}, l.findIdx? p = some j →
      ∃ hj : j < l.length, (l.filter p).head? = some (l.get ⟨j, hj⟩)
  | [], j, h => by simp at h
  | a :: t, j, h => by
    rw [List.findIdx?_cons] at h
    by_cases hp : p a
    · rw [if_pos hp] at h
      obtain rfl : 0 = j := by simpa using h
      exact ⟨by simp, by simp [List.filter_cons, hp]⟩
    · rw [if_neg hp, List.findIdx?_start_succ] at h
      rcases Option.map_eq_some'.mp h with ⟨j', hj', rfl⟩
      obtain ⟨hlt, hhead⟩ := filter_head_of_findIdx hj'
      refine ⟨by simpa using Nat.succ_lt_succ hlt, ?_⟩
      rw [List.filter_cons, if_neg (by simpa using hp)]
      simpa using hhead

/-- Replacing a position by the value already there is the identity. -/
theorem set_get_self {α : Type} :
    ∀ (l : List α) (j : Nat) (hj : j < l.length), l.set j (l.get ⟨j, hj⟩) = l
  | _ :: _, 0, _ => rfl
  | a :: t, j + 1, hj => by
    simp only [List.set_cons_succ, List.get_cons_succ]
    rw [set_get_self t j (by simpa using hj)]

/-- C4: running the reconcile merge twice with the same record is
idempotent — the second merge finds the record it just wrote (the sort is
stable, so that record is the first hit for its date), replaces it by
itself, and re-sorts an already sorted sequence. -/
theorem merge_idempotent (history : List NavRecord) (record : NavRecord) :
    mergeRecord (mergeRecord history record) record = mergeRecord history record := by
  have hrm : record ∈ mergeRecord history record :=
    mem_mergeRecord.mpr (self_mem_preMerge history record)
  have hsome : ((mergeRecord history record).findIdx?
      (fun h => h.date == record.date)).isSome := by
    rw [List.findIdx?_isSome]
    exact List.any_eq_true.mpr ⟨record, hrm, by simp⟩
  obtain ⟨j, hj⟩ := Option.isSome_iff_exists.mp hsome
  obtain ⟨hjl, hhead⟩ := filter_head_of_findIdx hj
  have hfilter := mergeRecord_filter_eq history record
  obtain ⟨rest, hrest⟩ := filter_preMerge history record
  have hget : (mergeRecord history record).get ⟨j, hjl⟩ = record := by
    rw [hfilter, hrest] at hhead
    simpa using hhead.symm
  have hsorted : (mergeRecord history record).Pairwise (fun a b => navLe a b) :=
    List.sorted_mergeSort navLe_trans navLe_total (preMerge history record)
  show (preMerge (mergeRecord history record) record).mergeSort navLe = _
  have hpre : preMerge (mergeRecord history record) record =
      mergeRecord history record := by
    have hset := set_get_self (mergeRecord history record) j hjl
    rw [hget] at hset
    unfold preMerge
    rw [hj]
    exact hset
  rw [hpre]
  exact List.mergeSort_of_sorted hsorted

end NavStamp

namespace NavStamp

/-- Strict sortedness of the merged output on histories with distinct
dates. -/
theorem mergeRecord_sorted_lt (history : List NavRecord) (record : NavRecord)
    (hdist : DistinctDates history) :
    (mergeRecord history record).Pairwise (fun a b => a.date < b.date) :=
  ((mergeRecord_sorted_le history record).and
    (mergeRecord_distinct history record hdist)).imp
    (fun hab => lt_of_le_of_ne hab.1 hab.2)

/-- In a history with at most one record per date, two members sharing a
date are the same record. -/
theorem eq_of_mem_same_date {l : List NavRecord} (hd : DistinctDates l)
    {x y : NavRecord} (hx : x ∈ l) (hy : y ∈ l) (hxy : x.date = y.date) : x = y := by
  rcases List.mem_iff_get.mp hx with ⟨ix, rfl⟩
  rcases List.mem_iff_get.mp hy with ⟨iy, rfl⟩
  have hp := List.pairwise_iff_get.mp hd
  rcases Nat.lt_trichotomy ix.val iy.val with h | h | h
  · exact absurd hxy (hp ix iy h)
  · congr 1
    exact Fin.ext h
  · exact absurd hxy.symm (hp iy ix h)

/-- The merged history always contains the new record's date, so the
post-merge `findIndex` lookup succeeds. -/
theorem mergeRecord_findIdx (history : List NavRecord) (record : NavRecord) :
    ∃ i, (mergeRecord history record).findIdx?
      (fun h => h.date == record.date) = some i := by
  have hrm : record ∈ mergeRecord history record :=
    mem_mergeRecord.mpr (self_mem_preMerge history record)
  have hsome : ((mergeRecord history record).findIdx?
      (fun h => h.date == record.date)).isSome := by
    rw [List.findIdx?_isSome]
    exact List.any_eq_true.mpr ⟨record, hrm, by simp⟩
  exact Option.isSome_iff_exists.mp hsome

/-- In the sorted merged history, the record of the latest date strictly
before the new record's date sits immediately before the new record's
index. -/
theorem latest_prior_is_pred {history : List NavRecord} {record : NavRecord}
    (hdist : DistinctDates history) {i : Nat}
    (hj : (mergeRecord history record).findIdx?
      (fun h => h.date == record.date) = some i)
    {x : NavRecord} (hx : x ∈ mergeRecord history record)
    (hxlt : x.date < record.date)
    (hmax : ∀ y ∈ mergeRecord history record, y.date < record.date → y.date ≤ x.date) :
    0 < i ∧ (mergeRecord history record)[i - 1]? = some x := by
  have hstrict := mergeRecord_sorted_lt history record hdist
  have hsp := List.pairwise_iff_get.mp hstrict
  rcases findIdx_hit hj with ⟨hi, hpi⟩
  have hdi : ((mergeRecord history record).get ⟨i, hi⟩).date = record.date :=
    eq_of_beq hpi
  rcases List.mem_iff_get.mp hx with ⟨k, hk⟩
  have hki : k.val < i := by
    rcases Nat.lt_trichotomy k.val i with h | h | h
    · exact h
    · exfalso
      have hsame : (mergeRecord history record).get k =
          (mergeRecord history record).get ⟨i, hi⟩ := by
        congr 1
        exact Fin.ext h
      rw [hk] at hsame
      rw [hsame, hdi] at hxlt
      exact lt_irrefl _ hxlt
    · exfalso
      have := hsp ⟨i, hi⟩ k h
      rw [hk, hdi] at this
      exact absurd hxlt (lt_asymm this)
  have hi0 : 0 < i := Nat.lt_of_le_of_lt (Nat.zero_le _) hki
  have hi1 : i - 1 < (mergeRecord history record).length :=
    Nat.lt_of_lt_of_le (Nat.sub_lt hi0 one_pos) (le_of_lt hi)
  have hprevlt : ((mergeRecord history record).get ⟨i - 1, hi1⟩).date < record.date := by
    have := hsp ⟨i - 1, hi1⟩ ⟨i, hi⟩ (Nat.sub_lt hi0 one_pos)
    rwa [hdi] at this
  have h1 : ((mergeRecord history record).get ⟨i - 1, hi1⟩).date ≤ x.date :=
    hmax _ (List.get_mem _ _ _) hprevlt
  have h2 : x.date ≤ ((mergeRecord history record).get ⟨i - 1, hi1⟩).date := by
    have hk1 : k.val ≤ i - 1 := Nat.le_pred_of_lt hki
    rcases Nat.lt_or_ge k.val (i - 1) with hl | hg
    · have := hsp k ⟨i - 1, hi1⟩ hl
      rw [hk] at this
      exact le_of_lt this
    · have hke : k.val = i - 1 := Nat.le_antisymm hk1 hg
      have hsame : (mergeRecord history record).get k =
          (mergeRecord history record).get ⟨i - 1, hi1⟩ := by
        congr 1
        exact Fin.ext hke
      rw [hk] at hsame
      rw [hsame]
  have hdates : x.date = ((mergeRecord history record).get ⟨i - 1, hi1⟩).date :=
    le_antisymm h2 h1
  have hxprev : x = (mergeRecord history record).get ⟨i - 1, hi1⟩ :=
    eq_of_mem_same_date (mergeRecord_distinct history record hdist) hx
      (List.get_mem _ _ _) hdates
  refine ⟨hi0, ?_⟩
  rw [List.getElem?_eq_getElem hi1]
  simpa [List.get_eq_getElem] using congrArg some hxprev.symm

end NavStamp

namespace NavStamp

/-- Day-over-day change is absent when no record of an earlier date exists
in the merged history. -/
theorem day_change_none_of_no_prior {history : List NavRecord} {record : NavRecord}
    (hdist : DistinctDates history) {i : Nat} (p : ℚ)
    (hj : (mergeRecord history record).findIdx?
      (fun h => h.date == record.date) = some i)
    (hnone : ∀ x ∈ mergeRecord history record, ¬ x.date < record.date) :
    dayChangeOpt (mergeRecord history record) record.date p = none := by
  have hstrict := mergeRecord_sorted_lt history record hdist
  have hsp := List.pairwise_iff_get.mp hstrict
  rcases findIdx_hit hj with ⟨hi, hpi⟩
  have hdi : ((mergeRecord history record).get ⟨i, hi⟩).date = record.date :=
    eq_of_beq hpi
  have hzero : i = 0 := by
    by_contra h0
    have hi0 : 0 < i := Nat.pos_of_ne_zero h0
    have hi1 : i - 1 < (mergeRecord history record).length :=
      Nat.lt_of_lt_of_le (Nat.sub_lt hi0 one_pos) (le_of_lt hi)
    have hprevlt : ((mergeRecord history record).get ⟨i - 1, hi1⟩).date <
        record.date := by
      have := hsp ⟨i - 1, hi1⟩ ⟨i, hi⟩ (Nat.sub_lt hi0 one_pos)
      rwa [hdi] at this
    exact hnone _ (List.get_mem _ _ _) hprevlt
  subst hzero
  unfold dayChangeOpt
  rw [hj]
  simp

/-- C5: the day-over-day metric equals
`(today.sharePrice - yesterday.sharePrice) / yesterday.sharePrice * 100`,
is present exactly when the merged history has a record of an earlier date
(the latest such record) with a positive share price, and on the spec's
worked example — history `[2026-02-17 at 1.20]`, new record `2026-02-18 at
1.25` — it equals `25/6`, which rounds to `4.1667` at four decimal
places. -/
theorem day_change_pct_spec :
    dayChangeOpt (mergeRecord histC5 recC5) "2026-02-18" (5/4) = some (25/6) ∧
    toFixed4 (25/6) = 41667 / 10000 ∧
    (∀ (history : List NavRecord) (record : NavRecord) (p : ℚ),
      DistinctDates history →
      ((∀ x ∈ mergeRecord history record, ¬ x.date < record.date) →
        dayChangeOpt (mergeRecord history record) record.date p = none) ∧
      (∀ x ∈ mergeRecord history record, x.date < record.date →
        (∀ y ∈ mergeRecord history record, y.date < record.date → y.date ≤ x.date) →
        dayChangeOpt (mergeRecord history record) record.date p =
          if 0 < x.SharePrice then some ((p - x.SharePrice) / x.SharePrice * 100)
          else none)) := by
  refine ⟨?_, ?_, ?_⟩
  · rw [mergeC5]
    have hfind : (histC5 ++ [recC5]).findIdx?
        (fun h => h.date == "2026-02-18") = some 1 := rfl
    have hget : (histC5 ++ [recC5])[0]? = some (mkRec "2026-02-17" (6/5)) := rfl
    unfold dayChangeOpt
    rw [hfind]
    show (if 0 < 1 then _ else none) = _
    rw [if_pos (by norm_num)]
    show (match (histC5 ++ [recC5])[0]? with
      | some prev =>
        if 0 < prev.SharePrice then
          some ((5/4 - prev.SharePrice) / prev.SharePrice * 100)
        else none
      | none => none) = _
    rw [hget]
    norm_num [mkRec]
  · norm_num [toFixed4, round_eq]
  · intro history record p hdist
    obtain ⟨i, hj⟩ := mergeRecord_findIdx history record
    constructor
    · exact day_change_none_of_no_prior hdist p hj
    · intro x hx hxlt hmax
      obtain ⟨hi0, hpred⟩ := latest_prior_is_pred hdist hj hx hxlt hmax
      unfold dayChangeOpt
      rw [hj]
      simp only [if_pos hi0, hpred]

/-- Witness for C5's general clause at the spec's worked example. -/
theorem day_change_pct_spec_witness :
    DistinctDates histC5 ∧
    dayChangeOpt (mergeRecord histC5 recC5) recC5.date (5/4) =
      (if 0 < (mkRec "2026-02-17" (6/5)).SharePrice
       then some ((5/4 - (mkRec "2026-02-17" (6/5)).SharePrice) /
         (mkRec "2026-02-17" (6/5)).SharePrice * 100) else none) := by
  refine ⟨by unfold DistinctDates; decide, ?_⟩
  refine (day_change_pct_spec.2.2 histC5 recC5 (5/4)
    (by unfold DistinctDates; decide)).2 (mkRec "2026-02-17" (6/5)) ?_ ?_ ?_
  · rw [mergeC5]
    simp [histC5]
  · rw [String.lt_iff_toList_lt]
    decide
  · intro y hy hylt
    rw [mergeC5] at hy
    rcases List.mem_append.mp hy with hy | hy
    · rcases List.mem_singleton.mp (by simpa [histC5] using hy) with rfl
      exact le_refl _
    · rcases List.mem_singleton.mp hy with rfl
      exact absurd hylt (lt_irrefl _)

end NavStamp

namespace NavStamp

/-- Forward characterization of a successful run: with a valid share price
and tvl the run writes exactly the merged history, with the warnings and
day change computed from it. -/
theorem runNavStamp_ok (vault : VaultPayload) (td now : String) (h : List NavRecord)
    {raw tv : ℚ} (hsp : vault.SharePrice = some raw) (hraw : 0 < raw)
    (htvl : vault.tvl = some tv) (htv : 0 < tv) :
    runNavStamp (.ok vault) td now h = .ok
      { saved := mergeRecord h (recordOf raw tv td now vault.update_time_utc)
        warnings :=
          (if tvlDropWarn h tv then ["tvl-drop"] else []) ++
          (if devWarnV2 (mergeRecord h (recordOf raw tv td now vault.update_time_utc))
              (raw * normalizationRatioVal)
            then ["price-deviation"] else [])
        dayChange := dayChangeOpt
          (mergeRecord h (recordOf raw tv td now vault.update_time_utc)) td
          (raw * normalizationRatioVal) } := by
  simp only [runNavStamp, hsp, htvl]
  rw [if_neg (not_le.mpr hraw), if_neg (not_le.mpr htv), if_neg (not_le.mpr htv)]

/-- Inverse characterization: any successful run came from a fetched
payload with positive share price and tvl, and wrote the merged history. -/
theorem runNavStamp_ok_inv {fetched : Except String VaultPayload} {td now : String}
    {h : List NavRecord} {out : RunOutput}
    (hok : runNavStamp fetched td now h = .ok out) :
    ∃ vault raw tv, fetched = .ok vault ∧ vault.SharePrice = some raw ∧ 0 < raw ∧
      vault.tvl = some tv ∧ 0 < tv ∧
      out.saved = mergeRecord h (recordOf raw tv td now vault.update_time_utc) := by
  cases fetched with
  | error e => simp [runNavStamp] at hok
  | ok vault =>
    cases hsp : vault.SharePrice with
    | none => simp [runNavStamp, hsp] at hok
    | some raw =>
      by_cases hr : raw ≤ 0
      · simp [runNavStamp, hsp, if_pos hr] at hok
      · cases htvl : vault.tvl with
        | none => simp [runNavStamp, hsp, if_neg hr, htvl] at hok
        | some tv =>
          by_cases ht : tv ≤ 0
          · simp [runNavStamp, hsp, if_neg hr, htvl, if_pos ht] at hok
          · simp only [runNavStamp, hsp, htvl, if_neg hr, if_neg ht] at hok
            refine ⟨vault, raw, tv, rfl, hsp, not_le.mp hr, htvl, not_le.mp ht, ?_⟩
            injection hok with hinj
            rw [← hinj]

/-- C3: a record whose share price is missing or non-positive is rejected
before any write (the run errors out), and a successful run only ever adds
a record with a positive share price — every record of the written history
either was already persisted or has a positive price.  (JSON numbers are
finite, so a non-finite price cannot reach the validation at all.) -/
theorem invalid_share_price_rejected (vault : VaultPayload) (td now : String)
    (h : List NavRecord) :
    ((vault.SharePrice = none ∨ ∃ q, vault.SharePrice = some q ∧ q ≤ 0) →
      runNavStamp (.ok vault) td now h = .error .invalidSharePrice) ∧
    (∀ out, runNavStamp (.ok vault) td now h = .ok out →
      ∀ x ∈ out.saved, x ∈ h ∨ 0 < x.SharePrice) := by
  constructor
  · intro hbad
    rcases hbad with hnone | ⟨q, hq, hq0⟩
    · simp [runNavStamp, hnone]
    · simp [runNavStamp, hq, if_pos hq0]
  · intro out hok x hx
    obtain ⟨vault', raw, tv, _, _, hraw, _, _, hsaved⟩ := runNavStamp_ok_inv hok
    rw [hsaved] at hx
    rcases mem_preMerge (mem_mergeRecord.mp hx) with hxh | hxr
    · exact Or.inl hxh
    · right
      rw [hxr]
      show 0 < raw * normalizationRatioVal
      have : (0:ℚ) < normalizationRatioVal := by norm_num [normalizationRatioVal]
      positivity

/-- Witness for C3: a payload with share price 0 is rejected. -/
theorem invalid_share_price_rejected_witness :
    runNavStamp (.ok { SharePrice := some 0, tvl := some 1, update_time_utc := none })
      "2026-02-18" "t" [] = .error .invalidSharePrice :=
  (invalid_share_price_rejected _ "2026-02-18" "t" []).1
    (Or.inr ⟨0, rfl, le_refl 0⟩)

/-- C8: when the fetch of the essential primary source fails (and the
normalization variant has no fallback), the run aborts without touching
the history file; conversely a run that wrote output had a successful
fetch. -/
theorem fetch_failure_aborts (e : String) (td now : String) (h : List NavRecord) :
    runNavStamp (.error e) td now h = .error (.sourceUnavailable e) ∧
    (∀ (fetched : Except String VaultPayload) (out : RunOutput),
      runNavStamp fetched td now h = .ok out →
      ∃ vault, fetched = .ok vault) := by
  constructor
  · rfl
  · intro fetched out hok
    obtain ⟨vault, _, _, hfv, _⟩ := runNavStamp_ok_inv hok
    exact ⟨vault, hfv⟩

/-- Witness for C8 at a concrete failed fetch. -/
theorem fetch_failure_aborts_witness :
    runNavStamp (.error "HTTP 500") "2026-02-18" "t" histC5 =
      .error (.sourceUnavailable "HTTP 500") :=
  (fetch_failure_aborts "HTTP 500" "2026-02-18" "t" histC5).1

/-- C10: in the normalization variant, a tvl that is missing or not
positive aborts the run with an error before any write, while a tvl drop
of more than 40 percent against the last entry's positive tvl only emits a
warning — the run still succeeds and the record is merged and persisted. -/
theorem tvl_validation_and_drop_policy (vault : VaultPayload) (td now : String)
    (h : List NavRecord) :
    ((vault.tvl = none ∨ ∃ t, vault.tvl = some t ∧ t ≤ 0) →
      ∃ err, runNavStamp (.ok vault) td now h = .error err) ∧
    (∀ raw tv, vault.SharePrice = some raw → 0 < raw → vault.tvl = some tv → 0 < tv →
      ∀ prev, h.getLast? = some prev → 0 < prev.tvl →
        2/5 < (prev.tvl - tv) / prev.tvl →
      ∃ out, runNavStamp (.ok vault) td now h = .ok out ∧
        "tvl-drop" ∈ out.warnings ∧
        recordOf raw tv td now vault.update_time_utc ∈ out.saved) := by
  constructor
  · intro hbad
    cases hsp : vault.SharePrice with
    | none => exact ⟨.invalidSharePrice, by simp [runNavStamp, hsp]⟩
    | some raw =>
      by_cases hr : raw ≤ 0
      · exact ⟨.invalidSharePrice, by simp [runNavStamp, hsp, if_pos hr]⟩
      · rcases hbad with hnone | ⟨t, ht, ht0⟩
        · exact ⟨.invalidTVL, by simp [runNavStamp, hsp, if_neg hr, hnone]⟩
        · exact ⟨.invalidTVL, by simp [runNavStamp, hsp, if_neg hr, ht, if_pos ht0]⟩
  · intro raw tv hsp hraw htvl htv prev hlast hprev hdrop
    refine ⟨_, runNavStamp_ok vault td now h hsp hraw htvl htv, ?_, ?_⟩
    · have hwarn : tvlDropWarn h tv = true := by
        simp [tvlDropWarn, hlast, hprev, hdrop]
      rw [hwarn]
      simp
    · exact mem_mergeRecord.mpr (self_mem_preMerge h _)

/-- Witness for C10: a 50 percent tvl drop (10 to 5) warns but the record
is still persisted. -/
theorem tvl_validation_and_drop_policy_witness :
    ∃ out, runNavStamp
      (.ok { SharePrice := some 1, tvl := some 5, update_time_utc := none })
      "2026-02-18" "t" [prevRecC10] = .ok out ∧
      "tvl-drop" ∈ out.warnings ∧
      recordOf 1 5 "2026-02-18" "t" none ∈ out.saved := by
  refine (tvl_validation_and_drop_policy _ "2026-02-18" "t" _).2 1 5 rfl
    (by norm_num) rfl (by norm_num) _ rfl (by norm_num [prevRecC10])
    (by norm_num [prevRecC10])

end NavStamp

namespace NavStamp

/-- Counterexample to C6: with four prior records at 1.10 and a new price
of 1.157, the deviation from the prior-records mean is 5.18 percent —
above the 5 percent threshold, so the claimed check must fire — yet the
normalization variant's check (lines 319-325), which averages the last
five records of the merged history including today's own record, stays
silent.  The public-vault variant's strictly-prior check does fire on the
same input. -/
theorem deviation_claim_counterexample :
    (mergeRecord histC6 recC6c).findIdx? (fun h => h.date == "2026-02-14") = some 4 ∧
    priorPrices (mergeRecord histC6 recC6c) 4 = [11/10, 11/10, 11/10, 11/10] ∧
    1/20 < |(1157/1000 : ℚ) - listMean [11/10, 11/10, 11/10, 11/10]| /
      listMean [11/10, 11/10, 11/10, 11/10] ∧
    devWarnV2 (mergeRecord histC6 recC6c) (1157/1000) = false ∧
    devWarnV1 (mergeRecord histC6 recC6c) "2026-02-14" (1157/1000) = true := by
  have hq : (((11:ℚ)/10) != 0) = true := by
    simp only [bne_iff_ne, ne_eq]
    norm_num
  have hfind : (histC6 ++ [recC6c]).findIdx?
      (fun h => h.date == "2026-02-14") = some 4 := rfl
  rw [mergeC6c]
  refine ⟨hfind, ?_, ?_, ?_, ?_⟩
  · unfold priorPrices
    norm_num [histC6, recC6c, mkRec, List.filter, hq]
  · norm_num [listMean, abs_of_nonneg]
  · norm_num [devWarnV2, histC6, recC6c, mkRec, listMean, abs_of_nonneg, abs_of_nonpos]
  · unfold devWarnV1
    rw [hfind]
    norm_num [priorPrices, histC6, recC6c, mkRec, listMean, List.filter, hq,
      abs_of_nonneg, abs_of_nonpos]

/-- C6 as amended: the public-vault variant's check averages the nonzero
prices of up to four records strictly before the new record and warns iff
the new price deviates from that mean by more than 5 percent; the
normalization variant instead averages the last five records of the merged
history, including the new record itself.  On four priors at 1.10, a new
price of 1.20 fires both checks and 1.13 fires neither; neither warning
affects what a successful run writes. -/
theorem deviation_check_amended :
    (∀ (merged : List NavRecord) (d : String) (p : ℚ) (i : Nat),
      merged.findIdx? (fun h => h.date == d) = some i →
      (priorPrices merged i =
        ((((merged.take i).drop (i - 4)).map (fun h => h.SharePrice)).filter
          (fun q => q != 0)) ∧
      (devWarnV1 merged d p = true ↔ priorPrices merged i ≠ [] ∧
        1/20 < |p - listMean (priorPrices merged i)| /
          listMean (priorPrices merged i)))) ∧
    (devWarnV1 (mergeRecord histC6 recC6a) "2026-02-14" (6/5) = true ∧
      devWarnV2 (mergeRecord histC6 recC6a) (6/5) = true) ∧
    (devWarnV1 (mergeRecord histC6 recC6b) "2026-02-14" (113/100) = false ∧
      devWarnV2 (mergeRecord histC6 recC6b) (113/100) = false) ∧
    (∀ (fetched : Except String VaultPayload) (td now : String)
      (h : List NavRecord) (out : RunOutput),
      runNavStamp fetched td now h = .ok out →
      ∃ vault raw tv, fetched = .ok vault ∧
        out.saved = mergeRecord h (recordOf raw tv td now vault.update_time_utc)) := by
  have hq : (((11:ℚ)/10) != 0) = true := by
    simp only [bne_iff_ne, ne_eq]
    norm_num
  refine ⟨?_, ?_, ?_, ?_⟩
  · intro merged d p i hfind
    constructor
    · unfold priorPrices
      rw [List.take_drop, Nat.add_sub_cancel' (Nat.sub_le i 4)]
    · unfold devWarnV1
      rw [hfind]
      show (if 0 < (priorPrices merged i).length then
        decide (1/20 < |p - listMean (priorPrices merged i)| /
          listMean (priorPrices merged i)) else false) = true ↔ _
      by_cases hl : 0 < (priorPrices merged i).length
      · rw [if_pos hl, decide_eq_true_eq]
        have hne : priorPrices merged i ≠ [] := by
          intro hnil
          rw [hnil] at hl
          simp at hl
        exact ⟨fun hgt => ⟨hne, hgt⟩, fun hc => hc.2⟩
      · rw [if_neg hl]
        have hnil : priorPrices merged i = [] := by
          rcases List.eq_nil_or_concat (priorPrices merged i) with h0 | ⟨ys, y, hy⟩
          · exact h0
          · exfalso
            apply hl
            rw [hy]
            simp
        simp [hnil]
  · constructor
    · have hfind : (histC6 ++ [recC6a]).findIdx?
          (fun h => h.date == "2026-02-14") = some 4 := rfl
      rw [mergeC6a]
      unfold devWarnV1
      rw [hfind]
      norm_num [priorPrices, histC6, recC6a, mkRec, listMean, List.filter, hq,
        abs_of_nonneg, abs_of_nonpos]
    · rw [mergeC6a]
      norm_num [devWarnV2, histC6, recC6a, mkRec, listMean, abs_of_nonneg,
        abs_of_nonpos]
  · constructor
    · have hfind : (histC6 ++ [recC6b]).findIdx?
          (fun h => h.date == "2026-02-14") = some 4 := rfl
      rw [mergeC6b]
      unfold devWarnV1
      rw [hfind]
      norm_num [priorPrices, histC6, recC6b, mkRec, listMean, List.filter, hq,
        abs_of_nonneg, abs_of_nonpos]
    · rw [mergeC6b]
      norm_num [devWarnV2, histC6, recC6b, mkRec, listMean, abs_of_nonneg,
        abs_of_nonpos]
  · intro fetched td now h out hok
    obtain ⟨vault, raw, tv, hfv, _, _, _, _, hsaved⟩ := runNavStamp_ok_inv hok
    exact ⟨vault, raw, tv, hfv, hsaved⟩

/-- Witness for C6's amended characterization at the 1.20 example. -/
theorem deviation_check_amended_witness :
    (mergeRecord histC6 recC6a).findIdx? (fun h => h.date == "2026-02-14") = some 4 ∧
    devWarnV1 (mergeRecord histC6 recC6a) "2026-02-14" (6/5) = true := by
  have hq : (((11:ℚ)/10) != 0) = true := by
    simp only [bne_iff_ne, ne_eq]
    norm_num
  have hfind0 : (histC6 ++ [recC6a]).findIdx?
      (fun h => h.date == "2026-02-14") = some 4 := rfl
  have hfind : (mergeRecord histC6 recC6a).findIdx?
      (fun h => h.date == "2026-02-14") = some 4 := by
    rw [mergeC6a]
    exact hfind0
  have hp : priorPrices (mergeRecord histC6 recC6a) 4 =
      [11/10, 11/10, 11/10, 11/10] := by
    rw [mergeC6a]
    unfold priorPrices
    norm_num [histC6, recC6a, mkRec, List.filter, hq]
  refine ⟨hfind, ?_⟩
  refine (deviation_check_amended.1 (mergeRecord histC6 recC6a) "2026-02-14"
    (6/5) 4 hfind).2.mpr ⟨?_, ?_⟩
  · rw [hp]
    simp
  · rw [hp]
    norm_num [listMean, abs_of_nonneg]

end NavStamp

namespace NavStamp

/-- Counterexample to C7: the persistence used by both `daily-nav-stamp.js`
variants (lines 153-154 and 327-329) writes the history file directly with
`fs.writeFileSync` — no temporary file, no rename — so a crash in the
middle of the write reaches a state where the history file itself holds
the remains of a partial write in place of the previously valid history. -/
theorem direct_write_crash_counterexample :
    DirectSaveReachable histC5 (mergeRecord histC5 recC5)
      { target := some .corrupt, tmp := none } ∧
    ∀ h : List NavRecord, FileContent.corrupt ≠ FileContent.valid h :=
  ⟨DirectSaveReachable.midWrite, fun _ hc => FileContent.noConfusion hc⟩

/-- C7 as amended: the tmp-write-then-atomic-rename `saveHistory` of
`part_001` (lines 246-252) is crash-safe — at every reachable crash point
the history file holds a valid history, either the old one or the new one
— while the `daily-nav-stamp.js` variants write the file directly and can
leave a partial file on crash (see the counterexample). -/
theorem atomic_save_crash_safe (old new : List NavRecord) (s : FsState)
    (hs : AtomicSaveReachable old new s) :
    ∃ c, s.target = some (.valid c) ∧ (c = old ∨ c = new) := by
  cases hs with
  | start => exact ⟨old, rfl, Or.inl rfl⟩
  | midWrite => exact ⟨old, rfl, Or.inl rfl⟩
  | tmpDone => exact ⟨old, rfl, Or.inl rfl⟩
  | renamed => exact ⟨new, rfl, Or.inr rfl⟩

/-- Witness for C7's amended theorem at the crash point between the tmp
write and the rename. -/
theorem atomic_save_crash_safe_witness :
    ∃ c, (FsState.mk (some (.valid histC5)) (some (.valid (histC5 ++ [recC5])))).target =
      some (.valid c) ∧ (c = histC5 ∨ c = histC5 ++ [recC5]) :=
  atomic_save_crash_safe histC5 (histC5 ++ [recC5]) _ AtomicSaveReachable.tmpDone

end NavStamp
